import Mathlib

/-!
# Verification of the image-permute combinatorial pipeline engine

This file embeds the core of the repository (the mixed-radix enumerators in
`util.rs` and `executors.rs`, and the per-image scheduler
`FusedExecutor::all_pipelines` / `FusedExecutor::execute` in `executors.rs`)
as Lean definitions, and proves the specified properties about them.

Machine integers: the Rust iterators are generic over an integer type `N`
(instantiated at `usize` by the scheduler and at `i32` by the tests); we embed
digits and bases as `Int`, which covers both instantiations on the values that
actually occur.  Fallible or panicking operations are embedded with `Option`:
an outer `none` models a panic.
-/

/-- A digit-vector: one digit per registered stage, as emitted by the
enumerators. -/
abbrev DigitVec := List Int

/-!
## The enumerator core (`util.rs` lines 58-98, `executors.rs` lines 128-165)

Both `SetVariationIterator::next` and `PowerSetIterator::next` increment
`variation[0]` and then run the same carry loop over `maxes`.  `carryLoop`
embeds that loop: it receives the variation with its first digit already
incremented, paired with `maxes` (the loop iterates over `maxes`; in every
reachable state the two lists have the same length, established at
construction and preserved by every step).  At index `idx`, if
`variation[idx] > maxes[idx]` the digit is zeroed and the carry moves to
`idx + 1`, unless `idx` is the last index, in which case the iterator is
finished (`none`); otherwise the loop breaks and the variation is returned.
-/
def carryLoop : List Int → List Int → Option (List Int)
  | d :: d2 :: ds, m :: m2 :: ms =>
      if d > m then (carryLoop ((d2 + 1) :: ds) (m2 :: ms)).map (fun r => (0 : Int) :: r)
      else some (d :: d2 :: ds)
  | [d], [m] => if d > m then none else some [d]
  | ds, _ => some ds

/-- State of `SetVariationIterator` (`util.rs`): the digit bases `maxes`, the
current variation (`none` before the first item), and the finished flag. -/
structure SetVariationIterator where
  maxes : List Int
  variation : Option (List Int)
  finished : Bool
deriving Repr, DecidableEq

/-- The `possibilities()` adapter of `util.rs`: initial iterator state. -/
def SetVariationIterator.init (maxes : List Int) : SetVariationIterator :=
  ⟨maxes, none, false⟩

/-- State of `PowerSetIterator` (`executors.rs`): identical fields to
`SetVariationIterator`. -/
structure PowerSetIterator where
  maxes : List Int
  variation : Option (List Int)
  finished : Bool
deriving Repr, DecidableEq

/-- The `power_set()` adapter of `executors.rs`: initial iterator state. -/
def PowerSetIterator.init (maxes : List Int) : PowerSetIterator :=
  ⟨maxes, none, false⟩

/-- `PowerSetIterator::next` (`executors.rs` lines 134-164).  The result is
`none` when the call panics (this happens exactly when the stored variation is
the empty vector: `variation[0] += N::one()` indexes out of bounds), and
`some (item, nextState)` otherwise, where `item : Option DigitVec` is what the
Rust call returns.  Unlike `SetVariationIterator::next` there is **no**
`maxes.is_empty()` early return.  When the carry runs off the end the Rust
code has zeroed every digit, so the stored variation is all-zero. -/
def PowerSetIterator.next (s : PowerSetIterator) :
    Option (Option DigitVec × PowerSetIterator) :=
  if s.finished then some (none, s)
  else
    match s.variation with
    | none =>
        let v : DigitVec := List.replicate s.maxes.length 0
        some (some v, ⟨s.maxes, some v, false⟩)
    | some [] => none
    | some (d :: ds) =>
        match carryLoop ((d + 1) :: ds) s.maxes with
        | some v => some (some v, ⟨s.maxes, some v, false⟩)
        | none => some (none, ⟨s.maxes, some (List.replicate s.maxes.length 0), true⟩)

/-- `SetVariationIterator::next` (`util.rs` lines 64-97).  Identical to
`PowerSetIterator.next` except for the extra `self.maxes.is_empty()` early
return on line 65. -/
def SetVariationIterator.next (s : SetVariationIterator) :
    Option (Option DigitVec × SetVariationIterator) :=
  if s.finished || s.maxes.isEmpty then some (none, s)
  else
    match s.variation with
    | none =>
        let v : DigitVec := List.replicate s.maxes.length 0
        some (some v, ⟨s.maxes, some v, false⟩)
    | some [] => none
    | some (d :: ds) =>
        match carryLoop ((d + 1) :: ds) s.maxes with
        | some v => some (some v, ⟨s.maxes, some v, false⟩)
        | none => some (none, ⟨s.maxes, some (List.replicate s.maxes.length 0), true⟩)

/-- Result of driving an iterator: the items it yielded, together with how the
run ended — the iterator reported exhaustion (`completed`), a `next` call
panicked (`panicked`), or the step budget ran out (`fuelOut`). -/
inductive RunOut where
  | completed (vs : List DigitVec)
  | panicked (vs : List DigitVec)
  | fuelOut (vs : List DigitVec)
deriving Repr, DecidableEq

/-- Prepend one yielded item to a run result. -/
def RunOut.push (v : DigitVec) : RunOut → RunOut
  | completed vs => completed (v :: vs)
  | panicked vs => panicked (v :: vs)
  | fuelOut vs => fuelOut (v :: vs)

/-- The items yielded during a run, regardless of how it ended. -/
def RunOut.yields : RunOut → List DigitVec
  | completed vs => vs
  | panicked vs => vs
  | fuelOut vs => vs

/-- Drive `PowerSetIterator` for at most `fuel` calls to `next`, collecting
everything it yields. -/
def psRun : Nat → PowerSetIterator → RunOut
  | 0, _ => .fuelOut []
  | fuel + 1, s =>
      match s.next with
      | none => .panicked []
      | some (none, _) => .completed []
      | some (some v, s2) => (psRun fuel s2).push v

/-- Drive `SetVariationIterator` for at most `fuel` calls to `next`. -/
def svRun : Nat → SetVariationIterator → RunOut
  | 0, _ => .fuelOut []
  | fuel + 1, s =>
      match s.next with
      | none => .panicked []
      | some (none, _) => .completed []
      | some (some v, s2) => (svRun fuel s2).push v

/-- A step budget large enough to exhaust either iterator: one call per
possible digit-vector plus one final call. -/
def enumFuel (maxes : List Int) : Nat :=
  (maxes.map (fun b => b.toNat + 1)).prod + 1

/-- The complete sequence of digit-vectors the scheduler's enumerator
(`PowerSetIterator`) emits for the given bases (the items produced before the
iterator completes or panics). -/
def psTrace (maxes : List Int) : List DigitVec :=
  (psRun (enumFuel maxes) (PowerSetIterator.init maxes)).yields

/-- The complete sequence of digit-vectors `SetVariationIterator` emits. -/
def svTrace (maxes : List Int) : List DigitVec :=
  (svRun (enumFuel maxes) (SetVariationIterator.init maxes)).yields

/-!
## The specified odometer sequence (spec section 4.1)

`odometer maxes` is the sequence of digit-vectors described by the spec:
every digit `d_i` ranges over `0..=b_i` (a non-positive base pins its digit at
`0`), in odometer order with `d_0` the fastest-incrementing digit.
-/

/-- The values a single digit with base `m` takes: `0, 1, ..., m` (just `0`
when `m ≤ 0`). -/
def digitRange (m : Int) : List Int :=
  (List.range (m.toNat + 1)).map Int.ofNat

/-- The odometer-order sequence of digit-vectors over the given bases, with
the first digit cycling fastest. -/
def odometer : List Int → List DigitVec
  | [] => [[]]
  | m :: ms => (odometer ms).flatMap fun rest => (digitRange m).map fun d => d :: rest

/-- A digit-vector is valid for the given bases when it has one digit per
base, each digit `d` satisfying `0 ≤ d ≤ max m 0` for its base `m`.  Every
vector the iterators hold in a reachable state is valid. -/
def ValidVec (maxes : List Int) (v : DigitVec) : Prop :=
  List.Forall₂ (fun m d => 0 ≤ d ∧ d ≤ max m 0) maxes v

/-- The suffix of the odometer sequence over `maxes` that starts at the valid
vector `v` (inclusive): first the remaining sweep of the fastest digit with
the other digits held fixed, then, for each later configuration of the
remaining digits, a full sweep of the fastest digit. -/
def remainingFrom : List Int → DigitVec → List DigitVec
  | m :: ms, d :: ds =>
      ((List.range' d.toNat (m.toNat + 1 - d.toNat)).map fun k => (Int.ofNat k) :: ds)
        ++ (remainingFrom ms ds).tail.flatMap fun rest => (digitRange m).map fun k => k :: rest
  | _, _ => [[]]

/-!
## The scheduler (`executors.rs` lines 11-93)

`Tags` (`main.rs`) is a set of opaque string labels; the scheduler only passes
it to `should_execute`, so we model the `HashSet<String>` as a list of
strings.  Images and random sources stay abstract type parameters: the
scheduler never inspects them, it only clones images, hands them to
`ImageStage::execute`, and reseeds random sources via `SeedableRng`
(`R::seed_from_u64`, modelled by a parameter `seed_from : Nat → R`).
-/

/-- The `Tags` newtype of `main.rs`. -/
abbrev Tags := List String

/-- The `ImageStage` trait of `traits.rs`: a concrete transform with
`execute` (new image plus produced tags) and a `name` fragment. -/
structure ImageStage (Img : Type) where
  execute : Img → Img × Tags
  name : String

instance {Img : Type} [Inhabited Img] : Inhabited (ImageStage Img) :=
  ⟨⟨fun i => (i, []), ""⟩⟩

/-- The `StageBuilder` trait of `traits.rs`. -/
structure StageBuilder (Img R : Type) where
  should_execute : Tags → Bool
  variations : Nat
  build_stage : R → List (ImageStage Img)

instance {Img R : Type} : Inhabited (StageBuilder Img R) :=
  ⟨⟨fun _ => false, 0, fun _ => []⟩⟩

/-- The `FusedExecutor` struct of `executors.rs`: an ordered list of
registered stage builders and an output directory. -/
structure FusedExecutor (Img R : Type) where
  stages : List (StageBuilder Img R)
  out_dir : String

/-- The seed derived from an image name (`executors.rs` line 57): the sum of
the name's character code points, as a `u64` (`c as u64` then `sum()`). -/
def seedOf (name : String) : Nat :=
  ((name.data.map fun c => c.toNat).sum) % 2 ^ 64

/-- The base list fed to `power_set()` (`executors.rs` lines 59-62):
`bd.variations() * (bd.should_execute(tags) as usize)` for each registered
builder, in registration order. -/
def basesOf {Img R : Type} (stages : List (StageBuilder Img R)) (tags : Tags) : List Int :=
  stages.map fun bd => (bd.variations : Int) * (if bd.should_execute tags then 1 else 0)

/-- The work done for one digit-vector `set` inside `all_pipelines`
(`executors.rs` lines 63-92): select `(variant, build_stage(rng))` for every
positive digit (each with a random source freshly reseeded from the image
seed), then fold over the selections, threading the image through
`stage[variant - 1].execute` and appending `"_" ++ name()` fragments, and
finally append `".png"`.  The result is the persisted (file name, image)
pair; we name files relative to the output directory. -/
def comboOutput {Img R : Type} [Inhabited Img] (e : FusedExecutor Img R)
    (seed_from : Nat → R) (name : String) (img : Img) (set : DigitVec) : String × Img :=
  let seed := seedOf name
  let stagesSel := set.enum.filterMap fun p =>
    if 0 < p.2 then some (p.2.toNat, (e.stages.getD p.1 default).build_stage (seed_from seed))
    else none
  let out := stagesSel.foldl
    (fun acc q =>
      let st := q.2.getD (q.1 - 1) default
      (acc.1 ++ "_" ++ st.name, (st.execute acc.2).1))
    (name, img)
  (out.1 ++ ".png", out.2)

/-- `FusedExecutor::all_pipelines` (`executors.rs` lines 55-93): the list of
(output file name, output image) pairs persisted for one loaded image, one
per digit-vector emitted by the `power_set()` enumerator over the computed
bases. -/
def FusedExecutor.all_pipelines {Img R : Type} [Inhabited Img] (e : FusedExecutor Img R)
    (seed_from : Nat → R) (tags : Tags) (img : Img) (name : String) : List (String × Img) :=
  (psTrace (basesOf e.stages tags)).map (comboOutput e seed_from name img)

/-- The per-image body of `FusedExecutor::execute` (`executors.rs` lines
45-52), with the I/O boundary abstracted: `decoded` is the result of
`image::open` (`none` = decode failure), `stem`'s outer `Option` is
`file_stem()` presence and its inner `Option` is `to_str()` UTF-8 validity,
and `pipelines` stands for `all_pipelines` applied to the loaded image and
the stem string.  An outer `none` result models a panic of the `unwrap`
calls; `some outs` models normal completion with the produced outputs (a
decode failure returns `some []`: the image is skipped and nothing is
written). -/
def processImage {Img : Type} (decoded : Option Img) (stem : Option (Option String))
    (pipelines : Img → String → List (String × Img)) : Option (List (String × Img)) :=
  match decoded with
  | none => some []
  | some loaded =>
      match stem with
      | none => none
      | some none => none
      | some (some s) => some (pipelines loaded s)

/-!
## Spec-side description of one combination (spec section 4.3, step 3)

`selectedStages` reads off the spec's words: for every index `i` with
`d_i > 0`, reseed a fresh random source from the image's seed, call
`build_stage` on builder `i` and select element `d_i - 1`; indices with
`d_i = 0` are skipped; the selections are kept in ascending registration
order.  `specCombine` then applies them left to right starting from the
unmodified image, and the output name is the base name followed by each
applied stage's fragment, each preceded by an underscore, in the same
order. -/
def selectedStages {Img R : Type} [Inhabited Img] (r : R) :
    DigitVec → List (StageBuilder Img R) → List (ImageStage Img)
  | d :: ds, bd :: bds =>
      (if 0 < d then [(bd.build_stage r).getD (d.toNat - 1) default] else [])
        ++ selectedStages r ds bds
  | _, _ => []

/-- The indices of the builders a digit-vector applies (its positive
digits). -/
def appliedIdxs (dvec : DigitVec) : List Nat :=
  (List.range dvec.length).filter fun i => 0 < dvec.getD i 0

/-- The output pair the spec prescribes for one digit-vector. -/
def specCombine {Img R : Type} [Inhabited Img] (stages : List (StageBuilder Img R))
    (seed_from : Nat → R) (name : String) (img : Img) (dvec : DigitVec) : String × Img :=
  let sel := selectedStages (seed_from (seedOf name)) dvec stages
  (name ++ String.join (sel.map fun st => "_" ++ st.name) ++ ".png",
   sel.foldl (fun im st => (st.execute im).1) img)

/-- A concrete stage over `Nat` images (adds a constant), used to instantiate
the generic theorems on concrete inputs. -/
def addStage (k : Nat) : ImageStage Nat :=
  ⟨fun i => (i + k, []), "add" ++ toString k⟩

/-- A concrete always-eligible builder over `Nat` images with two variants. -/
def alwaysOn : StageBuilder Nat Nat :=
  ⟨fun _ => true, 2, fun r => [addStage r, addStage (r + 1)]⟩

/-- A concrete never-eligible builder over `Nat` images. -/
def alwaysOff : StageBuilder Nat Nat :=
  ⟨fun _ => false, 2, fun r => [addStage r, addStage (r + 1)]⟩

/-- A concrete executor with one eligible and one ineligible builder. -/
def wExec : FusedExecutor Nat Nat :=
  ⟨[alwaysOn, alwaysOff], "processed"⟩

/-!
## Lemmas about the enumerator core
-/

theorem toNat_le_of_valid {m d : Int} (h0 : 0 ≤ d) (h1 : d ≤ max m 0) : d.toNat ≤ m.toNat := by
  rcases le_total m 0 with hm | hm
  · have hd : d ≤ 0 := by simpa [max_eq_right hm] using h1
    omega
  · have hd : d ≤ m := by simpa [max_eq_left hm] using h1
    omega

theorem toNat_max_zero (b : Int) : (max b 0).toNat = b.toNat := by
  rcases le_total b 0 with hb | hb
  · simp [max_eq_right hb]
    omega
  · simp [max_eq_left hb]

theorem validVec_replicate_zero (maxes : List Int) :
    ValidVec maxes (List.replicate maxes.length 0) := by
  induction maxes with
  | nil => exact List.Forall₂.nil
  | cons m ms ih =>
      exact List.Forall₂.cons ⟨le_refl 0, le_max_right m 0⟩ ih

/-- The remaining sequence from a valid vector starts with that vector. -/
theorem remainingFrom_cons_self {maxes : List Int} {v : DigitVec} (h : ValidVec maxes v) :
    remainingFrom maxes v = v :: (remainingFrom maxes v).tail := by
  cases h with
  | nil => rfl
  | @cons m d ms ds hd tl =>
      obtain ⟨h0, h1⟩ := hd
      have hdm : d.toNat ≤ m.toNat := toNat_le_of_valid h0 h1
      have hsplit : m.toNat + 1 - d.toNat = (m.toNat - d.toNat) + 1 := by omega
      simp only [remainingFrom, hsplit, List.range'_succ, List.map_cons, List.cons_append,
        List.tail_cons, Int.ofNat_eq_coe]
      rw [Int.toNat_of_nonneg h0]

/-- When a `carryLoop` pass succeeds, the resulting vector is valid. -/
theorem carryLoop_valid :
    ∀ {ds : List Int} {m : Int} {ms : List Int} {d : Int} {w : List Int},
      ValidVec (m :: ms) (d :: ds) → carryLoop ((d + 1) :: ds) (m :: ms) = some w →
      ValidVec (m :: ms) w := by
  intro ds
  induction ds with
  | nil =>
      intro m ms d w h hc
      cases h with
      | @cons _ _ _ _ hd tl =>
        cases tl
        obtain ⟨h0, h1⟩ := hd
        by_cases hgt : d + 1 > m
        · simp [carryLoop, hgt] at hc
        · simp only [carryLoop, if_neg hgt, Option.some.injEq] at hc
          subst hc
          exact List.Forall₂.cons ⟨by omega, le_trans (by omega) (le_max_left m 0)⟩ .nil
  | cons d2 ds2 ih =>
      intro m ms d w h hc
      cases h with
      | @cons _ _ _ _ hd tl =>
        cases tl with
        | @cons m2 _ ms2 _ hd2 tl2 =>
          obtain ⟨h0, h1⟩ := hd
          by_cases hgt : d + 1 > m
          · simp only [carryLoop, if_pos hgt, Option.map_eq_some'] at hc
            obtain ⟨w2, hw2, rfl⟩ := hc
            exact List.Forall₂.cons ⟨le_refl 0, le_max_right m 0⟩
              (ih (List.Forall₂.cons hd2 tl2) hw2)
          · simp only [carryLoop, if_neg hgt, Option.some.injEq] at hc
            subst hc
            exact List.Forall₂.cons ⟨by omega, le_trans (by omega) (le_max_left m 0)⟩
              (List.Forall₂.cons hd2 tl2)

/-- When the carry runs off the end, the current vector was the last one. -/
theorem remainingFrom_last :
    ∀ {ds : List Int} {m : Int} {ms : List Int} {d : Int},
      ValidVec (m :: ms) (d :: ds) → carryLoop ((d + 1) :: ds) (m :: ms) = none →
      remainingFrom (m :: ms) (d :: ds) = [d :: ds] := by
  intro ds
  induction ds with
  | nil =>
      intro m ms d h hc
      cases h with
      | @cons _ _ _ _ hd tl =>
        cases tl
        obtain ⟨h0, h1⟩ := hd
        by_cases hgt : d + 1 > m
        · have hdm : d.toNat ≤ m.toNat := toNat_le_of_valid h0 h1
          have heq : m.toNat + 1 - d.toNat = 1 := by omega
          simp only [remainingFrom, heq, List.range'_one, List.map_cons, List.map_nil,
            List.cons_append, List.nil_append, Int.ofNat_eq_coe]
          rw [Int.toNat_of_nonneg h0]
          rfl
        · simp [carryLoop, hgt] at hc
  | cons d2 ds2 ih =>
      intro m ms d h hc
      cases h with
      | @cons _ _ _ _ hd tl =>
        cases tl with
        | @cons m2 _ ms2 _ hd2 tl2 =>
          obtain ⟨h0, h1⟩ := hd
          by_cases hgt : d + 1 > m
          · simp only [carryLoop, if_pos hgt, Option.map_eq_none'] at hc
            have htl : remainingFrom (m2 :: ms2) (d2 :: ds2) = [d2 :: ds2] :=
              ih (List.Forall₂.cons hd2 tl2) hc
            have hdm : d.toNat ≤ m.toNat := toNat_le_of_valid h0 h1
            have hge : m.toNat ≤ d.toNat := by omega
            have heq : m.toNat + 1 - d.toNat = 1 := by omega
            rw [remainingFrom, htl]
            simp only [heq, List.range'_one, List.map_cons, List.map_nil,
              List.tail_cons, List.flatMap_nil, List.cons_append, List.nil_append,
              List.append_nil, Int.ofNat_eq_coe]
            rw [Int.toNat_of_nonneg h0]
          · simp [carryLoop, hgt] at hc

/-- When a `carryLoop` pass succeeds, the remaining sequence from the current
vector is the current vector followed by the remaining sequence from the
carry's result. -/
theorem remainingFrom_step :
    ∀ {ds : List Int} {m : Int} {ms : List Int} {d : Int} {w : List Int},
      ValidVec (m :: ms) (d :: ds) → carryLoop ((d + 1) :: ds) (m :: ms) = some w →
      remainingFrom (m :: ms) (d :: ds) = (d :: ds) :: remainingFrom (m :: ms) w := by
  intro ds
  induction ds with
  | nil =>
      intro m ms d w h hc
      cases h with
      | @cons _ _ _ _ hd tl =>
        cases tl
        obtain ⟨h0, h1⟩ := hd
        by_cases hgt : d + 1 > m
        · simp [carryLoop, hgt] at hc
        · simp only [carryLoop, if_neg hgt, Option.some.injEq] at hc
          subst hc
          have hdm : d.toNat < m.toNat := by omega
          have hs1 : m.toNat + 1 - d.toNat = (m.toNat - d.toNat) + 1 := by omega
          have hs2 : (d + 1).toNat = d.toNat + 1 := by omega
          have hs3 : m.toNat + 1 - (d.toNat + 1) = m.toNat - d.toNat := by omega
          simp only [remainingFrom, hs1, hs2, hs3, List.range'_succ, List.map_cons,
            List.cons_append, Int.ofNat_eq_coe]
          rw [Int.toNat_of_nonneg h0]
  | cons d2 ds2 ih =>
      intro m ms d w h hc
      cases h with
      | @cons _ _ _ _ hd tl =>
        cases tl with
        | @cons m2 _ ms2 _ hd2 tl2 =>
          obtain ⟨h0, h1⟩ := hd
          by_cases hgt : d + 1 > m
          · simp only [carryLoop, if_pos hgt, Option.map_eq_some'] at hc
            obtain ⟨w2, hw2, rfl⟩ := hc
            have hvtail : ValidVec (m2 :: ms2) (d2 :: ds2) := List.Forall₂.cons hd2 tl2
            have hw2v : ValidVec (m2 :: ms2) w2 := carryLoop_valid hvtail hw2
            have htl : remainingFrom (m2 :: ms2) (d2 :: ds2)
                = (d2 :: ds2) :: remainingFrom (m2 :: ms2) w2 := ih hvtail hw2
            have hdm : d.toNat ≤ m.toNat := toNat_le_of_valid h0 h1
            have heq : m.toNat + 1 - d.toNat = 1 := by omega
            rw [remainingFrom, htl]
            conv_rhs => rw [remainingFrom]
            rw [remainingFrom_cons_self hw2v]
            simp only [heq, List.range'_one, List.map_cons, List.map_nil, List.tail_cons,
              List.flatMap_cons, List.cons_append, List.nil_append, Int.ofNat_eq_coe,
              digitRange, List.map_map]
            rw [Int.toNat_of_nonneg h0]
            have h0nat : ((0 : Int)).toNat = 0 := rfl
            simp only [h0nat, Nat.sub_zero, ← List.range_eq_range', Function.comp,
              List.append_assoc]
            simp [Function.comp_def]
          · simp only [carryLoop, if_neg hgt, Option.some.injEq] at hc
            subst hc
            have hdm : d.toNat < m.toNat := by omega
            have hs1 : m.toNat + 1 - d.toNat = (m.toNat - d.toNat) + 1 := by omega
            have hs2 : (d + 1).toNat = d.toNat + 1 := by omega
            have hs3 : m.toNat + 1 - (d.toNat + 1) = m.toNat - d.toNat := by omega
            simp only [remainingFrom, hs1, hs2, hs3, List.range'_succ, List.map_cons,
              List.cons_append, Int.ofNat_eq_coe]
            rw [Int.toNat_of_nonneg h0]

/-- Driving `PowerSetIterator` from a reachable running state with a valid
current vector yields exactly the rest of the odometer suffix. -/
theorem psRun_some_variation :
    ∀ (fuel : Nat) {maxes : List Int} {v : DigitVec},
      maxes ≠ [] → ValidVec maxes v →
      (remainingFrom maxes v).length ≤ fuel →
      psRun fuel ⟨maxes, some v, false⟩ = .completed (remainingFrom maxes v).tail := by
  intro fuel
  induction fuel with
  | zero =>
      intro maxes v hne hv hlen
      rw [remainingFrom_cons_self hv] at hlen
      simp at hlen
  | succ fuel ih =>
      intro maxes v hne hv hlen
      cases hv with
      | nil => exact absurd rfl hne
      | @cons m d ms ds hd tl =>
        have hv : ValidVec (m :: ms) (d :: ds) := List.Forall₂.cons hd tl
        cases hc : carryLoop ((d + 1) :: ds) (m :: ms) with
        | none =>
            have hlast := remainingFrom_last hv hc
            simp only [psRun, PowerSetIterator.next, Bool.false_eq_true, if_false, hc,
              hlast, List.tail_cons]
        | some w =>
            have hstep := remainingFrom_step hv hc
            have hwv : ValidVec (m :: ms) w := carryLoop_valid hv hc
            have hlen' : (remainingFrom (m :: ms) w).length ≤ fuel := by
              rw [hstep] at hlen
              simpa using hlen
            have hrec : psRun fuel ⟨m :: ms, some w, false⟩
                = .completed (remainingFrom (m :: ms) w).tail := ih hne hwv hlen'
            simp only [psRun, PowerSetIterator.next, Bool.false_eq_true, if_false, hc, hrec,
              hstep, List.tail_cons, RunOut.push]
            rw [remainingFrom_cons_self hwv]
            simp

/-- The odometer suffix starting at the all-zero vector is the whole odometer
sequence. -/
theorem remainingFrom_zero :
    ∀ (maxes : List Int), remainingFrom maxes (List.replicate maxes.length 0) = odometer maxes := by
  intro maxes
  induction maxes with
  | nil => rfl
  | cons m ms ih =>
      have hz : ValidVec ms (List.replicate ms.length 0) := validVec_replicate_zero ms
      have hhead : remainingFrom ms (List.replicate ms.length 0)
          = List.replicate ms.length 0 :: (remainingFrom ms (List.replicate ms.length 0)).tail :=
        remainingFrom_cons_self hz
      simp only [List.length_cons, List.replicate_succ]
      rw [remainingFrom, ih, odometer, ← ih, hhead]
      simp only [List.tail_cons, List.flatMap_cons, digitRange, List.map_map]
      have h0nat : ((0 : Int)).toNat = 0 := rfl
      simp only [h0nat, Nat.sub_zero, ← List.range_eq_range']
      simp [Function.comp_def]

/-- The odometer sequence starts with the all-zero vector. -/
theorem odometer_head (maxes : List Int) :
    odometer maxes = List.replicate maxes.length 0 :: (odometer maxes).tail := by
  rw [← remainingFrom_zero maxes]
  exact remainingFrom_cons_self (validVec_replicate_zero maxes)

/-- There are exactly `∏ (bᵢ.toNat + 1)` vectors in the odometer sequence. -/
theorem odometer_length (maxes : List Int) :
    (odometer maxes).length = (maxes.map fun b => b.toNat + 1).prod := by
  induction maxes with
  | nil => rfl
  | cons m ms ih =>
      simp only [odometer, List.length_flatMap, List.map_map, List.map_cons, List.prod_cons]
      have : ∀ rest : DigitVec,
          ((List.map (fun d => d :: rest) (digitRange m)).length) = m.toNat + 1 := by
        intro rest; simp [digitRange]
      simp only [Function.comp_def, this, List.map_const', List.sum_replicate, smul_eq_mul,
        ← ih]
      ring

/-- Every vector in the odometer sequence is valid for its bases. -/
theorem odometer_mem_valid :
    ∀ {maxes : List Int} {v : DigitVec}, v ∈ odometer maxes → ValidVec maxes v := by
  intro maxes
  induction maxes with
  | nil =>
      intro v hv
      simp only [odometer, List.mem_singleton] at hv
      subst hv
      exact List.Forall₂.nil
  | cons m ms ih =>
      intro v hv
      simp only [odometer, List.mem_flatMap, List.mem_map] at hv
      obtain ⟨rest, hrest, d, hd, rfl⟩ := hv
      simp only [digitRange, List.mem_map, List.mem_range] at hd
      obtain ⟨k, hk, rfl⟩ := hd
      have hco : (Int.ofNat k) = (k : Int) := rfl
      refine List.Forall₂.cons ⟨by rw [hco]; omega, ?_⟩ (ih hrest)
      rw [hco]
      rcases le_total m 0 with hm | hm
      · rw [max_eq_right hm]
        omega
      · rw [max_eq_left hm]
        omega

/-- The odometer sequence only depends on the clamped (non-negative) bases:
negative bases behave exactly as zero bases. -/
theorem odometer_map_max (maxes : List Int) :
    odometer (maxes.map fun b => max b 0) = odometer maxes := by
  induction maxes with
  | nil => rfl
  | cons m ms ih =>
      simp only [List.map_cons, odometer, ih, digitRange, toNat_max_zero]

/-- Driving the scheduler's enumerator from its initial state with enough
fuel completes and emits exactly the odometer sequence (non-empty bases). -/
theorem psRun_init (fuel : Nat) {maxes : List Int} (hne : maxes ≠ [])
    (hf : (odometer maxes).length + 1 ≤ fuel) :
    psRun fuel (PowerSetIterator.init maxes) = .completed (odometer maxes) := by
  match fuel, hf with
  | fuel + 1, hf =>
    have hz : ValidVec maxes (List.replicate maxes.length 0) := validVec_replicate_zero maxes
    have hlen : (remainingFrom maxes (List.replicate maxes.length 0)).length ≤ fuel := by
      rw [remainingFrom_zero]
      omega
    have hrec := psRun_some_variation fuel hne hz hlen
    simp only [psRun, PowerSetIterator.init, PowerSetIterator.next, Bool.false_eq_true,
      if_false, hrec, RunOut.push]
    rw [remainingFrom_zero] at hrec ⊢
    rw [← odometer_head]

/-- The scheduler's enumerator emits exactly the odometer sequence, for every
base list.  (For an empty base list both sides are `[[]]`: the iterator
yields one empty vector — and then panics, see the dedicated theorems.) -/
theorem psTrace_eq_odometer (maxes : List Int) : psTrace maxes = odometer maxes := by
  cases hm : maxes with
  | nil => rfl
  | cons m ms =>
      have hne : m :: ms ≠ [] := by simp
      have hf : (odometer (m :: ms)).length + 1 ≤ enumFuel (m :: ms) := by
        rw [odometer_length, enumFuel]
      rw [psTrace, psRun_init (enumFuel (m :: ms)) hne hf, RunOut.yields]

/-- For a non-empty base list, `SetVariationIterator` and `PowerSetIterator`
run identically from corresponding states: the only textual difference
between the two `next` implementations is the `maxes.is_empty()` early
return, which never fires. -/
theorem svRun_eq_psRun :
    ∀ (fuel : Nat) (maxes : List Int) (variation : Option (List Int)) (finished : Bool),
      maxes ≠ [] →
      svRun fuel ⟨maxes, variation, finished⟩ = psRun fuel ⟨maxes, variation, finished⟩ := by
  intro fuel
  induction fuel with
  | zero => intro maxes variation finished hne; rfl
  | succ fuel ih =>
      intro maxes variation finished hne
      have hemp : maxes.isEmpty = false := by
        cases maxes with
        | nil => exact absurd rfl hne
        | cons m ms => rfl
      cases finished with
      | true => simp [svRun, psRun, SetVariationIterator.next, PowerSetIterator.next, hemp]
      | false =>
          cases variation with
          | none =>
              simp only [svRun, psRun, SetVariationIterator.next, PowerSetIterator.next, hemp,
                Bool.false_eq_true, Bool.or_self, if_false]
              rw [ih maxes (some (List.replicate maxes.length 0)) false hne]
          | some v =>
              cases v with
              | nil =>
                  simp [svRun, psRun, SetVariationIterator.next, PowerSetIterator.next, hemp]
              | cons d ds =>
                  simp only [svRun, psRun, SetVariationIterator.next, PowerSetIterator.next,
                    hemp, Bool.false_eq_true, Bool.or_self, if_false]
                  cases hc : carryLoop ((d + 1) :: ds) maxes with
                  | none => rfl
                  | some w =>
                      show (svRun fuel ⟨maxes, some w, false⟩).push w
                          = (psRun fuel ⟨maxes, some w, false⟩).push w
                      rw [ih maxes (some w) false hne]

/-!
## Lemmas about the scheduler
-/

theorem join_cons (a : String) (l : List String) :
    String.join (a :: l) = a ++ String.join l := by
  have haux : ∀ (l : List String) (x : String),
      l.foldl (fun r s => r ++ s) x = x ++ l.foldl (fun r s => r ++ s) "" := by
    intro l
    induction l with
    | nil => intro x; simp [String.append_empty]
    | cons b bs ih =>
        intro x
        simp only [List.foldl_cons]
        have hb : ("" : String) ++ b = b := rfl
        rw [hb, ih (x ++ b), ih b, String.append_assoc]
  simp only [String.join, List.foldl_cons]
  have ha : ("" : String) ++ a = a := rfl
  rw [ha, haux l a]

/-- Folding the scheduler's per-stage body over a selection equals the
spec-side pair: base name followed by the underscore-prefixed fragments, and
the image threaded through the stages. -/
theorem foldl_stage_pair {Img : Type} (sel : List (ImageStage Img)) :
    ∀ (n0 : String) (i0 : Img),
      sel.foldl (fun acc st => (acc.1 ++ "_" ++ st.name, (st.execute acc.2).1)) (n0, i0)
        = (n0 ++ String.join (sel.map fun st => "_" ++ st.name),
           sel.foldl (fun im st => (st.execute im).1) i0) := by
  induction sel with
  | nil =>
      intro n0 i0
      simp [String.join, String.append_empty]
  | cons st rest ih =>
      intro n0 i0
      simp only [List.foldl_cons, List.map_cons, join_cons, ih]
      rw [← String.append_assoc, ← String.append_assoc]

/-- The scheduler's `enumerate().filter_map(...)` chain, post-composed with
the `stage[variant - 1]` lookup it performs in the application loop, selects
exactly the stages the spec describes. -/
theorem enumFrom_filterMap_selected {Img R : Type} [Inhabited Img] (r : R)
    (stages : List (StageBuilder Img R)) :
    ∀ (dvec : DigitVec) (k : Nat) (bds : List (StageBuilder Img R)),
      stages.drop k = bds → dvec.length = bds.length →
      ((List.enumFrom k dvec).filterMap fun p =>
          if 0 < p.2 then some (p.2.toNat, (stages.getD p.1 default).build_stage r)
          else none).map
        (fun q => q.2.getD (q.1 - 1) default)
      = selectedStages r dvec bds := by
  intro dvec
  induction dvec with
  | nil =>
      intro k bds hdrop hlen
      cases bds with
      | nil => rfl
      | cons bd bds2 => simp at hlen
  | cons d ds ih =>
      intro k bds hdrop hlen
      cases bds with
      | nil => simp at hlen
      | cons bd bds2 =>
          have hget : stages.getD k default = bd := by
            have h0 : stages[k]? = some bd := by
              have := List.getElem?_drop stages k 0
              rw [hdrop] at this
              simpa using this.symm
            simp [List.getD_eq_getElem?_getD, h0]
          have hdrop2 : stages.drop (k + 1) = bds2 := by
            rw [← List.tail_drop, hdrop]
            rfl
          have hlen2 : ds.length = bds2.length := by simpa using hlen
          have hrec := ih (k + 1) bds2 hdrop2 hlen2
          have hcons : List.enumFrom k (d :: ds) = (k, d) :: List.enumFrom (k + 1) ds := rfl
          by_cases hd : 0 < d
          · rw [hcons]
            simp only [List.filterMap_cons, hget]
            rw [if_pos hd]
            simp only [List.map_cons, hrec]
            show (bd.build_stage r).getD (d.toNat - 1) default :: selectedStages r ds bds2
                = selectedStages r (d :: ds) (bd :: bds2)
            rw [selectedStages, if_pos hd, List.singleton_append]
          · rw [hcons]
            simp only [List.filterMap_cons, hget]
            rw [if_neg hd]
            simp only [hrec]
            show selectedStages r ds bds2 = selectedStages r (d :: ds) (bd :: bds2)
            rw [selectedStages, if_neg hd, List.nil_append]

/-- For one digit-vector of the right length, the scheduler's output pair is
exactly the spec's output pair. -/
theorem comboOutput_eq_specCombine {Img R : Type} [Inhabited Img] (e : FusedExecutor Img R)
    (seed_from : Nat → R) (name : String) (img : Img) (dvec : DigitVec)
    (hlen : dvec.length = e.stages.length) :
    comboOutput e seed_from name img dvec = specCombine e.stages seed_from name img dvec := by
  have hsel := enumFrom_filterMap_selected (seed_from (seedOf name)) e.stages dvec 0 e.stages
    rfl hlen
  simp only [comboOutput, specCombine, List.enum]
  have hfold :
      ((List.enumFrom 0 dvec).filterMap fun p =>
          if 0 < p.2 then
            some (p.2.toNat, (e.stages.getD p.1 default).build_stage (seed_from (seedOf name)))
          else none).foldl
        (fun acc q =>
          (acc.1 ++ "_" ++ (q.2.getD (q.1 - 1) default).name,
            ((q.2.getD (q.1 - 1) default).execute acc.2).1))
        (name, img)
      = (((List.enumFrom 0 dvec).filterMap fun p =>
            if 0 < p.2 then
              some (p.2.toNat, (e.stages.getD p.1 default).build_stage (seed_from (seedOf name)))
            else none).map fun q => q.2.getD (q.1 - 1) default).foldl
          (fun acc st => (acc.1 ++ "_" ++ st.name, (st.execute acc.2).1)) (name, img) :=
    (List.foldl_map (fun q : Nat × List (ImageStage Img) => q.2.getD (q.1 - 1) default)
      (fun acc st => (acc.1 ++ "_" ++ st.name, (st.execute acc.2).1)) _ _).symm
  rw [hfold, hsel, foldl_stage_pair]

/-- The selection `filter_map` produces nothing on an all-zero digit-vector. -/
theorem filterMap_enumFrom_replicate_zero {α : Type} (g : Nat × Int → α) :
    ∀ (n k : Nat),
      ((List.enumFrom k (List.replicate n (0 : Int))).filterMap fun p =>
        if 0 < p.2 then some (g p) else none) = [] := by
  intro n
  induction n with
  | zero => intro k; rfl
  | succ n ih =>
      intro k
      simp only [List.replicate_succ]
      have hcons : List.enumFrom k ((0 : Int) :: List.replicate n 0)
          = (k, (0 : Int)) :: List.enumFrom (k + 1) (List.replicate n 0) := rfl
      rw [hcons, List.filterMap_cons]
      simp only [ih]
      norm_num

/-- The all-zero digit-vector produces the unmodified image under the
unmodified base name (with the `".png"` extension appended). -/
theorem comboOutput_replicate_zero {Img R : Type} [Inhabited Img] (e : FusedExecutor Img R)
    (seed_from : Nat → R) (name : String) (img : Img) (n : Nat) :
    comboOutput e seed_from name img (List.replicate n 0) = (name ++ ".png", img) := by
  simp only [comboOutput, List.enum, filterMap_enumFrom_replicate_zero, List.foldl_nil]

/-- Pointwise reading of validity: a digit whose base is non-positive is 0. -/
theorem validVec_getD_zero {maxes : List Int} {v : DigitVec} (h : ValidVec maxes v)
    {i : Nat} (hi : i < maxes.length) (hm : maxes.get ⟨i, hi⟩ ≤ 0) : v.getD i 0 = 0 := by
  have hlen : maxes.length = v.length := List.Forall₂.length_eq h
  have hiv : i < v.length := hlen ▸ hi
  have hp := List.Forall₂.get h hi hiv
  obtain ⟨h0, h1⟩ := hp
  have hmax : max (maxes.get ⟨i, hi⟩) 0 = 0 := max_eq_right hm
  rw [hmax] at h1
  have : v.get ⟨i, hiv⟩ = 0 := le_antisymm h1 h0
  rw [List.getD_eq_getElem?_getD, List.getElem?_eq_getElem hiv]
  simpa using this

/-- Replacing the stage builder at an index whose digit is 0 does not change
the selected stages. -/
theorem selectedStages_set {Img R : Type} [Inhabited Img] (r : R) :
    ∀ (dvec : DigitVec) (stages : List (StageBuilder Img R)) (i : Nat)
      (alt : StageBuilder Img R),
      dvec.getD i 0 = 0 →
      selectedStages r dvec (stages.set i alt) = selectedStages r dvec stages := by
  intro dvec
  induction dvec with
  | nil =>
      intro stages i alt h
      cases stages with
      | nil => rfl
      | cons bd bds => cases i <;> rfl
  | cons d ds ih =>
      intro stages i alt h
      cases stages with
      | nil => rfl
      | cons bd bds =>
          cases i with
          | zero =>
              have hd : d = 0 := by simpa using h
              subst hd
              show selectedStages r (0 :: ds) (alt :: bds)
                  = selectedStages r (0 :: ds) (bd :: bds)
              rw [selectedStages, selectedStages]
              norm_num
          | succ j =>
              have h' : ds.getD j 0 = 0 := by simpa using h
              show selectedStages r (d :: ds) (bd :: bds.set j alt)
                  = selectedStages r (d :: ds) (bd :: bds)
              rw [selectedStages, selectedStages, ih bds j alt h']

/-- Replacing an ineligible stage builder by another ineligible one does not
change the computed bases. -/
theorem basesOf_set {Img R : Type} :
    ∀ (stages : List (StageBuilder Img R)) (tags : Tags) (i : Nat)
      (alt : StageBuilder Img R),
      (∀ (hi : i < stages.length), (stages.get ⟨i, hi⟩).should_execute tags = false) →
      alt.should_execute tags = false →
      basesOf (stages.set i alt) tags = basesOf stages tags := by
  intro stages
  induction stages with
  | nil => intro tags i alt h1 h2; rfl
  | cons bd bds ih =>
      intro tags i alt h1 h2
      cases i with
      | zero =>
          have hbd : bd.should_execute tags = false := h1 (by simp)
          simp only [List.set_cons_zero, basesOf, List.map_cons, hbd, h2]
          norm_num
      | succ j =>
          have h1' : ∀ (hj : j < bds.length), (bds.get ⟨j, hj⟩).should_execute tags = false := by
            intro hj
            exact h1 (by simpa using Nat.succ_lt_succ hj)
          simp only [List.set_cons_succ, basesOf, List.map_cons]
          have := ih tags j alt h1' h2
          simp only [basesOf] at this
          rw [this]

/-- The refinement: `all_pipelines` produces exactly the spec-side output for
every digit-vector of the odometer sequence over the computed bases, in
order. -/
theorem all_pipelines_eq_spec_aux {Img R : Type} [Inhabited Img] (e : FusedExecutor Img R)
    (seed_from : Nat → R) (tags : Tags) (img : Img) (name : String) :
    e.all_pipelines seed_from tags img name
      = (odometer (basesOf e.stages tags)).map (specCombine e.stages seed_from name img) := by
  rw [FusedExecutor.all_pipelines, psTrace_eq_odometer]
  apply List.map_congr_left
  intro dvec hdvec
  apply comboOutput_eq_specCombine
  have hvalid := odometer_mem_valid hdvec
  have hlen := List.Forall₂.length_eq hvalid
  rw [← hlen]
  simp [basesOf]

/-- An ineligible builder's base is 0, so its digit is 0 in every emitted
digit-vector. -/
theorem psTrace_getD_zero {Img R : Type} (stages : List (StageBuilder Img R)) (tags : Tags)
    (i : Nat) (hi : i < stages.length)
    (hg : (stages.get ⟨i, hi⟩).should_execute tags = false) :
    ∀ dvec ∈ psTrace (basesOf stages tags), dvec.getD i 0 = 0 := by
  intro dvec hdvec
  rw [psTrace_eq_odometer] at hdvec
  have hvalid := odometer_mem_valid hdvec
  have hib : i < (basesOf stages tags).length := by
    simpa [basesOf] using hi
  apply validVec_getD_zero hvalid hib
  have : (basesOf stages tags).get ⟨i, hib⟩
      = (stages.get ⟨i, hi⟩).variations * (if (stages.get ⟨i, hi⟩).should_execute tags then 1 else 0) := by
    simp [basesOf]
  rw [this, hg]
  simp

/-- A digit pinned at zero keeps its builder out of `appliedIdxs`. -/
theorem not_mem_appliedIdxs {dvec : DigitVec} {i : Nat} (h : dvec.getD i 0 = 0) :
    i ∉ appliedIdxs dvec := by
  intro hmem
  rw [appliedIdxs, List.mem_filter] at hmem
  have h2 := hmem.2
  simp only [decide_eq_true_eq] at h2
  rw [h] at h2
  exact absurd h2 (by norm_num)

/-- Noninterference of an ineligible builder: replacing it with any other
ineligible builder leaves every output of `all_pipelines` unchanged, so its
stage variants (and their name fragments) never reach any output. -/
theorem all_pipelines_set_aux {Img R : Type} [Inhabited Img] (e : FusedExecutor Img R)
    (seed_from : Nat → R) (tags : Tags) (img : Img) (name : String) (i : Nat)
    (hi : i < e.stages.length)
    (hg : (e.stages.get ⟨i, hi⟩).should_execute tags = false)
    (alt : StageBuilder Img R) (halt : alt.should_execute tags = false) :
    FusedExecutor.all_pipelines ⟨e.stages.set i alt, e.out_dir⟩ seed_from tags img name
      = e.all_pipelines seed_from tags img name := by
  rw [all_pipelines_eq_spec_aux, all_pipelines_eq_spec_aux]
  have hbases : basesOf ((⟨e.stages.set i alt, e.out_dir⟩ : FusedExecutor Img R).stages) tags
      = basesOf e.stages tags := basesOf_set e.stages tags i alt (fun _ => hg) halt
  rw [hbases]
  apply List.map_congr_left
  intro dvec hdvec
  have hvalid := odometer_mem_valid hdvec
  have hz : dvec.getD i 0 = 0 := by
    have := psTrace_getD_zero e.stages tags i hi hg dvec
    rw [psTrace_eq_odometer] at this
    exact this hdvec
  simp only [specCombine]
  rw [selectedStages_set (seed_from (seedOf name)) dvec e.stages i alt hz]

/-- The number of emitted vectors, with the factor each base contributes made
explicit: a non-positive base contributes a factor of 1. -/
theorem psTrace_length (maxes : List Int) :
    (psTrace maxes).length = (maxes.map fun b => if b ≤ 0 then 1 else b.toNat + 1).prod := by
  rw [psTrace_eq_odometer, odometer_length]
  congr 1
  apply List.map_congr_left
  intro b _
  by_cases hb : b ≤ 0 <;> simp [hb]

/-- Over non-negative bases the count is `∏ (bᵢ + 1)`, as an integer. -/
theorem odometer_length_int {maxes : List Int} (h : ∀ b ∈ maxes, 0 ≤ b) :
    ((odometer maxes).length : Int) = (maxes.map fun b => b + 1).prod := by
  induction maxes with
  | nil => simp [odometer]
  | cons m ms ih =>
      have hm : 0 ≤ m := h m (by simp)
      have hms : ∀ b ∈ ms, 0 ≤ b := fun b hb => h b (by simp [hb])
      have hcast : ((m.toNat + 1 : Nat) : Int) = m + 1 := by omega
      rw [odometer_length, List.map_cons, List.prod_cons, Nat.cast_mul, hcast,
        ← odometer_length, ih hms, List.map_cons, List.prod_cons]

/-- Over non-negative bases every emitted digit lies in `0..=bᵢ`. -/
theorem odometer_mem_bounds :
    ∀ {maxes : List Int}, (∀ b ∈ maxes, 0 ≤ b) →
      ∀ {v : DigitVec}, v ∈ odometer maxes →
      List.Forall₂ (fun b d => 0 ≤ d ∧ d ≤ b) maxes v := by
  intro maxes h v hv
  have hvalid := odometer_mem_valid hv
  clear hv
  induction hvalid with
  | nil => exact List.Forall₂.nil
  | @cons m d ms ds hd _ ih =>
      have hm : 0 ≤ m := h m (by simp)
      have hms : ∀ b ∈ ms, 0 ≤ b := fun b hb => h b (by simp [hb])
      refine List.Forall₂.cons ⟨hd.1, ?_⟩ (ih hms)
      have := hd.2
      rwa [max_eq_left hm] at this

/-!
## The claims
-/

/-- C1: for every digit-vector emitted for an image, the scheduler applies
exactly the stages at indices `i` with `d_i > 0`, each obtained by reseeding
a fresh random source from the image's seed, calling `build_stage` on builder
`i`, and selecting element `d_i - 1`; indices with `d_i = 0` contribute no
stage; the selected stages are applied in ascending registration order
starting from the unmodified loaded image, and the output name is the base
image name followed by each applied stage's name fragment, each preceded by
an underscore, in the same order (`specCombine`/`selectedStages` transcribe
exactly this description, and `all_pipelines` produces exactly that output
for every emitted digit-vector). -/
theorem claim_C1_scheduler_refines_spec {Img R : Type} [Inhabited Img]
    (e : FusedExecutor Img R) (seed_from : Nat → R) (tags : Tags) (img : Img) (name : String) :
    e.all_pipelines seed_from tags img name
      = (psTrace (basesOf e.stages tags)).map (specCombine e.stages seed_from name img) := by
  rw [all_pipelines_eq_spec_aux, psTrace_eq_odometer]

/-- C2: for every non-empty list of non-negative integer bases, the
scheduler's enumerator emits exactly the odometer-order sequence of
digit-vectors — each `d_i` ranges over `0..=b_i` inclusive with `d_0` the
fastest-incrementing digit, the first emitted vector is the all-zero vector,
and exactly `∏ (b_i + 1)` vectors are emitted before the sequence ends. -/
theorem claim_C2_odometer_enumeration (maxes : List Int) (fuel : Nat)
    (hne : maxes ≠ []) (hpos : ∀ b ∈ maxes, 0 ≤ b)
    (hfuel : (odometer maxes).length + 1 ≤ fuel) :
    psRun fuel (PowerSetIterator.init maxes) = .completed (odometer maxes)
      ∧ ((odometer maxes).length : Int) = (maxes.map fun b => b + 1).prod
      ∧ (odometer maxes).head? = some (List.replicate maxes.length 0)
      ∧ ∀ v ∈ odometer maxes, List.Forall₂ (fun b d => 0 ≤ d ∧ d ≤ b) maxes v := by
  refine ⟨psRun_init fuel hne hfuel, odometer_length_int hpos, ?_, ?_⟩
  · rw [odometer_head maxes, List.head?_cons]
  · intro v hv
    exact odometer_mem_bounds hpos hv

/-- Witness for C2 at the spec's own example, bases `[3, 1, 1]`: 16 vectors,
odometer order, first `[0,0,0]`, last `[3,1,1]`. -/
theorem claim_C2_witness :
    (([3, 1, 1] : List Int) ≠ [] ∧ (∀ b ∈ ([3, 1, 1] : List Int), 0 ≤ b)
        ∧ (odometer [3, 1, 1]).length + 1 ≤ 17)
      ∧ psRun 17 (PowerSetIterator.init [3, 1, 1]) = .completed (odometer [3, 1, 1])
      ∧ odometer [3, 1, 1] =
          [[0, 0, 0], [1, 0, 0], [2, 0, 0], [3, 0, 0],
           [0, 1, 0], [1, 1, 0], [2, 1, 0], [3, 1, 0],
           [0, 0, 1], [1, 0, 1], [2, 0, 1], [3, 0, 1],
           [0, 1, 1], [1, 1, 1], [2, 1, 1], [3, 1, 1]] :=
  ⟨⟨by decide, by decide, by decide⟩,
    (claim_C2_odometer_enumeration [3, 1, 1] 17 (by decide) (by decide) (by decide)).1,
    by decide⟩

/-- C3 (code bug): for the empty base list the enumerator the scheduler uses
(`PowerSetIterator`) does **not** yield zero digit-vectors: its first `next`
call yields `Some(vec![])` (one empty vector) and its second `next` call
panics (`variation[0]` indexes an empty vector), unlike
`SetVariationIterator`, whose `maxes.is_empty()` guard (exercised by the
repository's `power_set_empty` test) yields nothing and never panics. -/
theorem claim_C3_empty_bases_code_bug :
    psRun 2 (PowerSetIterator.init []) = .panicked [[]]
      ∧ svRun 2 (SetVariationIterator.init []) = .completed [] := by
  decide

/-- C4: for every base list, a digit whose base is zero or negative is 0 in
every emitted vector; such a base contributes a factor of 1 (not 0) to the
total number of emitted vectors; and negative bases behave exactly as zero
bases (the emitted sequence is unchanged by clamping bases at 0). -/
theorem claim_C4_pinned_digits (maxes : List Int) :
    (∀ v ∈ psTrace maxes, ∀ (i : Nat) (hi : i < maxes.length),
        maxes.get ⟨i, hi⟩ ≤ 0 → v.getD i 0 = 0)
      ∧ (psTrace maxes).length = (maxes.map fun b => if b ≤ 0 then 1 else b.toNat + 1).prod
      ∧ psTrace (maxes.map fun b => max b 0) = psTrace maxes := by
  refine ⟨?_, psTrace_length maxes, ?_⟩
  · intro v hv i hi hm
    rw [psTrace_eq_odometer] at hv
    exact validVec_getD_zero (odometer_mem_valid hv) hi hm
  · rw [psTrace_eq_odometer, psTrace_eq_odometer, odometer_map_max]

/-- Witness for C4 at the spec's own example, bases `[2, 0, 1]`: the middle
digit is 0 in all six emitted vectors. -/
theorem claim_C4_witness :
    psTrace [2, 0, 1] =
        [[0, 0, 0], [1, 0, 0], [2, 0, 0], [0, 0, 1], [1, 0, 1], [2, 0, 1]]
      ∧ (psTrace [2, 0, 1]).length
          = (([2, 0, 1] : List Int).map fun b => if b ≤ 0 then 1 else b.toNat + 1).prod
      ∧ psTrace [(2 : Int), -7, 1] = psTrace [2, 0, 1] :=
  ⟨by decide, (claim_C4_pinned_digits [2, 0, 1]).2.1, by decide⟩

/-- C5: the base used for stage builder `i` is `variations()` when
`should_execute` on the image's original tags is true, else 0; consequently a
stage whose `should_execute` is false for those tags has digit 0 in every
combination, is never among the applied builders, and its stage variants
never reach any output: replacing the whole builder by any other ineligible
builder leaves every output (name and image) unchanged. -/
theorem claim_C5_eligibility_gating {Img R : Type} [Inhabited Img]
    (e : FusedExecutor Img R) (seed_from : Nat → R) (tags : Tags) (img : Img) (name : String)
    (i : Nat) (hi : i < e.stages.length)
    (hg : (e.stages.get ⟨i, hi⟩).should_execute tags = false) :
    basesOf e.stages tags
        = e.stages.map (fun bd => if bd.should_execute tags then (bd.variations : Int) else 0)
      ∧ (∀ dvec ∈ psTrace (basesOf e.stages tags), dvec.getD i 0 = 0 ∧ i ∉ appliedIdxs dvec)
      ∧ (∀ alt : StageBuilder Img R, alt.should_execute tags = false →
          FusedExecutor.all_pipelines ⟨e.stages.set i alt, e.out_dir⟩ seed_from tags img name
            = e.all_pipelines seed_from tags img name) := by
  refine ⟨?_, ?_, ?_⟩
  · simp only [basesOf]
    apply List.map_congr_left
    intro bd _
    by_cases hbd : bd.should_execute tags <;> simp [hbd]
  · intro dvec hdvec
    have hz := psTrace_getD_zero e.stages tags i hi hg dvec hdvec
    exact ⟨hz, not_mem_appliedIdxs hz⟩
  · intro alt halt
    exact all_pipelines_set_aux e seed_from tags img name i hi hg alt halt

/-- Witness for C5 on the concrete executor `wExec`, whose second builder is
ineligible: the computed bases follow the specified formula, and concretely
equal `[2, 0]`, pinning the second digit at 0 in all three combinations. -/
theorem claim_C5_witness :
    basesOf wExec.stages []
        = wExec.stages.map (fun bd => if bd.should_execute [] then (bd.variations : Int) else 0)
      ∧ basesOf wExec.stages [] = [2, 0]
      ∧ psTrace (basesOf wExec.stages []) = [[0, 0], [1, 0], [2, 0]] :=
  ⟨(claim_C5_eligibility_gating wExec (fun n => n) [] 0 "img" 1 (by decide) (by decide)).1,
    by decide, by decide⟩

/-- C6: the scheduler is deterministic per image name: with the builder
configuration fixed, any two executions of one image's combination set — in
any processing orders — produce the same multiset of (output name, output
image) pairs, because every `build_stage` invocation uses a random source
freshly reseeded from the seed derived from the image name alone. -/
theorem claim_C6_determinism {Img R : Type} [Inhabited Img]
    (e : FusedExecutor Img R) (seed_from : Nat → R) (tags : Tags) (img : Img) (name : String)
    (order1 order2 : List DigitVec)
    (h1 : List.Perm order1 (psTrace (basesOf e.stages tags)))
    (h2 : List.Perm order2 (psTrace (basesOf e.stages tags))) :
    (↑(order1.map (comboOutput e seed_from name img)) : Multiset (String × Img))
      = ↑(order2.map (comboOutput e seed_from name img)) := by
  have p1 := h1.map (comboOutput e seed_from name img)
  have p2 := h2.map (comboOutput e seed_from name img)
  exact Multiset.coe_eq_coe.mpr (p1.trans p2.symm)

/-- Witness for C6 on `wExec`: processing the combinations in reverse order
produces the same multiset of outputs as the enumeration order. -/
theorem claim_C6_witness :
    (↑((psTrace (basesOf wExec.stages [])).reverse.map (comboOutput wExec (fun n => n) "img" 0))
        : Multiset (String × Nat))
      = ↑((psTrace (basesOf wExec.stages [])).map (comboOutput wExec (fun n => n) "img" 0)) :=
  claim_C6_determinism wExec (fun n => n) [] 0 "img" _ _
    (List.reverse_perm _) (List.Perm.refl _)

/-- C7: for every image, the all-zero digit-vector combination is emitted
first, applies no stages, and its output is the unmodified image under the
unmodified base name, persisted as `<base name>.png`. -/
theorem claim_C7_zero_combination {Img R : Type} [Inhabited Img]
    (e : FusedExecutor Img R) (seed_from : Nat → R) (tags : Tags) (img : Img) (name : String) :
    (psTrace (basesOf e.stages tags)).head? = some (List.replicate e.stages.length 0)
      ∧ comboOutput e seed_from name img (List.replicate e.stages.length 0)
          = (name ++ ".png", img) := by
  constructor
  · rw [psTrace_eq_odometer]
    have hlen : (basesOf e.stages tags).length = e.stages.length := by simp [basesOf]
    rw [odometer_head, List.head?_cons, hlen]
  · exact comboOutput_replicate_zero e seed_from name img e.stages.length

/-- C9 counterexample: on the empty base list the two enumerators differ —
`SetVariationIterator` completes with no items while `PowerSetIterator`
yields one empty vector and then panics — so they do not produce identical
sequences for *every* input base list. -/
theorem claim_C9_counterexample :
    svRun 2 (SetVariationIterator.init []) ≠ psRun 2 (PowerSetIterator.init [])
      ∧ svTrace [] = [] ∧ psTrace [] = [[]] := by
  decide

/-- C9 (amended): for every *non-empty* base list the two enumerators run
identically — same yielded digit-vectors, same termination — for any step
budget. -/
theorem claim_C9_amended_equivalence (maxes : List Int) (fuel : Nat) (hne : maxes ≠ []) :
    svRun fuel (SetVariationIterator.init maxes) = psRun fuel (PowerSetIterator.init maxes) :=
  svRun_eq_psRun fuel maxes none false hne

/-- Witness for the amended C9 at bases `[1]`. -/
theorem claim_C9_witness :
    (([1] : List Int) ≠ [])
      ∧ svRun 3 (SetVariationIterator.init [1]) = psRun 3 (PowerSetIterator.init [1]) :=
  ⟨by decide, claim_C9_amended_equivalence [1] 3 (by decide)⟩

/-- C10: `FusedExecutor::execute` skips an image exactly when decoding fails;
if decoding succeeds but the path has no file stem, or a stem that is not
valid UTF-8, the `unwrap` calls panic (the image's task aborts) instead of
the image being skipped. -/
theorem claim_C10_stem_unwrap_panics {Img : Type} (img : Img)
    (pipelines : Img → String → List (String × Img)) (stem : Option (Option String))
    (s : String) :
    processImage (none : Option Img) stem pipelines = some []
      ∧ processImage (some img) none pipelines = none
      ∧ processImage (some img) (some none) pipelines = none
      ∧ processImage (some img) (some (some s)) pipelines = some (pipelines img s) :=
  ⟨rfl, rfl, rfl, rfl⟩
